import Mathlib

/-!
Verification of the staticsite Markdown-to-HTML core.

This file gives a shallow embedding of the Python source files
`htmlnode.py`, `textnode.py`, `inline_markdown.py` and `block_markdown.py`
as Lean definitions over `List Char` strings, together with theorems
settling the specification claims about the tokenizer, the block
segmenter/classifier, the block-to-tree converters and the HTML node
renderer.  Python exceptions are modelled with `Except`, `None` with
`Option`, and Python's string methods (`split`, `strip`, `lstrip`,
`startswith`, `endswith`, `find`, `replace`) with executable functions
defined below.
-/

namespace StaticSite

/-- Strings are modelled as lists of characters. -/
abbrev Str := List Char

/-! ## Python string primitives -/

/-- Python's notion of whitespace for `str.strip()` (ASCII part). -/
def pyIsSpace (c : Char) : Bool :=
  (c == ' ') || (c == '\t') || (c == '\n') || (c == '\r') || (c == '\x0b') || (c == '\x0c')

/-- `str.lstrip` with an arbitrary character predicate. -/
def pyLstripBy (p : Char → Bool) (s : Str) : Str := s.dropWhile p

/-- `str.rstrip` with an arbitrary character predicate. -/
def pyRstripBy (p : Char → Bool) (s : Str) : Str := (s.reverse.dropWhile p).reverse

/-- `str.strip` with an arbitrary character predicate. -/
def pyStripBy (p : Char → Bool) (s : Str) : Str := pyRstripBy p (pyLstripBy p s)

/-- Python `s.strip()` (no argument: strip whitespace from both ends). -/
def pyStrip (s : Str) : Str := pyStripBy pyIsSpace s

/-- Membership of a character in a character set given as a string,
as used by Python `strip(chars)` / `lstrip(chars)`. -/
def charIn (set : Str) (c : Char) : Bool := set.contains c

/-- Python `s.lstrip(chars)`. -/
def pyLstripChars (set : Str) (s : Str) : Str := pyLstripBy (charIn set) s

/-- Python `s.strip(chars)`. -/
def pyStripChars (set : Str) (s : Str) : Str := pyStripBy (charIn set) s

/-- Helper of `splitFuel`: prepend a character to the first piece. -/
def consHead (c : Char) : List Str → List Str
  | [] => [[c]]
  | p :: ps => (c :: p) :: ps

/-- Fuel-driven core of Python `str.split(sep)` (structural recursion so
that the kernel can evaluate it).  With `s.length ≤ fuel` it computes the
greedy left-to-right split on non-overlapping occurrences of `sep`. -/
def splitFuel (sep : Str) : Nat → Str → List Str
  | _, [] => [[]]
  | 0, s => [s]
  | f + 1, c :: rest =>
    if (!sep.isEmpty) && sep.isPrefixOf (c :: rest) then
      [] :: splitFuel sep f ((c :: rest).drop sep.length)
    else
      consHead c (splitFuel sep f rest)

/-- Python `s.split(sep)` for a non-empty separator `sep`. -/
def pySplit (sep s : Str) : List Str := splitFuel sep s.length s

/-- Index of the first occurrence of `sep` in `s` (`str.find` for substrings). -/
def firstOcc (sep : Str) : Str → Option Nat
  | [] => if sep.isEmpty then some 0 else none
  | c :: rest =>
    if sep.isPrefixOf (c :: rest) then some 0
    else (firstOcc sep rest).map (· + 1)

/-- Python `s.split(sep, 1)`: split on the first occurrence only. -/
def pySplit1 (sep s : Str) : List Str :=
  match firstOcc sep s with
  | none => [s]
  | some i => [s.take i, s.drop (i + sep.length)]

/-- Decimal rendering of a natural number, as Python string interpolation does. -/
def natStr (n : Nat) : Str := (Nat.repr n).toList

/-- Join a list of strings with a separator (Python `sep.join(pieces)`). -/
def joinSep (sep : Str) : List Str → Str
  | [] => []
  | [x] => x
  | x :: xs => x ++ sep ++ joinSep sep xs

/-! ## Data model: text spans (`textnode.py`) and HTML nodes (`htmlnode.py`) -/

/-- The `TextType` enum of `textnode.py`. -/
inductive TextType where
  | text
  | bold
  | italic
  | code
  | link
  | image
deriving DecidableEq, Repr

/-- A `TextNode`: inline span with a text, a type and an optional url. -/
structure TextNode where
  text : Str
  textType : TextType
  url : Option Str
deriving DecidableEq, Repr

/-- The errors raised by the Python core (each a distinct `ValueError` /
`Exception` message in the source). -/
inductive PyErr where
  /-- "Invalid Markdown syntax: Unmatched delimiter ... in text: ..." -/
  | malformedInline (delim text : Str)
  /-- "Invalid HTML: LeafNode requires a value." -/
  | leafValueMissing
  /-- "Invalid HTML: ParentNode requires a tag." -/
  | parentTagMissing
  /-- "Invalid HTML: ParentNode requires children." -/
  | parentChildrenMissing
  /-- "Invalid TextNode: Link type requires a URL." -/
  | linkUrlMissing
  /-- "Invalid TextNode: Image type requires a URL (src)." -/
  | imageUrlMissing
  /-- "Invalid code block format" -/
  | invalidCodeBlock
  /-- "Invalid Markdown: No H1 heading found." -/
  | noTitleFound
deriving DecidableEq, Repr

/-- The HTML node tree of `htmlnode.py`: a `LeafNode` carries an optional
value, an optional tag and props; a `ParentNode` carries an optional tag,
an optional (per the Python `None` default) children list and props. -/
inductive HNode where
  | leaf (value : Option Str) (tag : Option Str) (props : List (Str × Str))
  | parent (tag : Option Str) (children : Option (List HNode)) (props : List (Str × Str))

/-- `HTMLNode.props_to_html`: `""` for empty props, otherwise a leading
space and space-separated `key="value"` items. -/
def props_to_html (props : List (Str × Str)) : Str :=
  match props with
  | [] => []
  | _ => ' ' :: joinSep ([' ']) (props.map fun kv => kv.1 ++ '=' :: '"' :: (kv.2 ++ ['"']))

mutual

/-- `LeafNode.to_html` / `ParentNode.to_html`: render a node, failing on a
leaf without a value, a parent without a (non-empty) tag, or a parent
whose children list is absent. -/
def to_html : HNode → Except PyErr Str
  | .leaf none _ _ => .error .leafValueMissing
  | .leaf (some v) none _ => .ok v
  | .leaf (some v) (some t) props =>
      .ok ('<' :: (t ++ props_to_html props) ++ '>' :: (v ++ '<' :: '/' :: (t ++ ['>'])))
  | .parent none _ _ => .error .parentTagMissing
  | .parent (some t) oc props =>
      if t.isEmpty then .error .parentTagMissing
      else
        match oc with
        | none => .error .parentChildrenMissing
        | some cs =>
          match to_html_list cs with
          | .error e => .error e
          | .ok inner =>
              .ok ('<' :: (t ++ props_to_html props) ++ '>' :: (inner ++ '<' :: '/' :: (t ++ ['>'])))

/-- Concatenate the renderings of a list of children, propagating errors. -/
def to_html_list : List HNode → Except PyErr Str
  | [] => .ok []
  | c :: cs =>
    match to_html c with
    | .error e => .error e
    | .ok h =>
      match to_html_list cs with
      | .error e => .error e
      | .ok t => .ok (h ++ t)

end

/-! ## Inline tokenizer (`inline_markdown.py`) -/

/-- Characters allowed in the alt/anchor text of the image/link regex
(`[^\[\]]`). -/
def notBracket (c : Char) : Bool := !((c == '[') || (c == ']'))

/-- Characters allowed in the url of the image/link regex (`[^\(\)]`). -/
def notParen (c : Char) : Bool := !((c == '(') || (c == ')'))

/-- Try to match the image regex `!\[([^\[\]]*)\]\(([^\(\)]*)\)` at the
start of `s`; on success return the alt text, the url, and the suffix of
`s` after the match. -/
def tryImage : Str → Option (Str × Str × Str)
  | '!' :: '[' :: t =>
    let alt := t.takeWhile notBracket
    match t.dropWhile notBracket with
    | ']' :: '(' :: u =>
      let url := u.takeWhile notParen
      (match u.dropWhile notParen with
       | ')' :: v => some (alt, url, v)
       | _ => none)
    | _ => none
  | _ => none

/-- Try to match the link regex `\[([^\[\]]*)\]\(([^\(\)]*)\)` at the
start of `s` (the `(?<!\!)` lookbehind is handled by the caller). -/
def tryLink : Str → Option (Str × Str × Str)
  | '[' :: t =>
    let anchor := t.takeWhile notBracket
    match t.dropWhile notBracket with
    | ']' :: '(' :: u =>
      let url := u.takeWhile notParen
      (match u.dropWhile notParen with
       | ')' :: v => some (anchor, url, v)
       | _ => none)
    | _ => none
  | _ => none

/-- Fuel-driven scan of `re.findall` for the image regex: try a match at
every position, and continue after the end of each match. -/
def findImagesFuel : Nat → Str → List (Str × Str)
  | _, [] => []
  | 0, _ => []
  | f + 1, c :: rest =>
    match tryImage (c :: rest) with
    | some (alt, url, v) => (alt, url) :: findImagesFuel f v
    | none => findImagesFuel f rest

/-- `extract_markdown_images`: all image matches, left to right. -/
def extract_markdown_images (s : Str) : List (Str × Str) := findImagesFuel s.length s

/-- Fuel-driven scan of `re.findall` for the link regex, tracking the
previous character to implement the `(?<!\!)` negative lookbehind. -/
def findLinksFuel : Nat → Option Char → Str → List (Str × Str)
  | _, _, [] => []
  | 0, _, _ => []
  | f + 1, prev, c :: rest =>
    if prev == some '!' then findLinksFuel f (some c) rest
    else
      match tryLink (c :: rest) with
      | some (anchor, url, v) => (anchor, url) :: findLinksFuel f (some ')') v
      | none => findLinksFuel f (some c) rest

/-- `extract_markdown_links`: all link matches not preceded by `!`. -/
def extract_markdown_links (s : Str) : List (Str × Str) := findLinksFuel s.length none s

/-- The literal markdown of an image, `f"![{alt}]({url})"`. -/
def imageMarkdownOf (alt url : Str) : Str :=
  '!' :: '[' :: (alt ++ ']' :: '(' :: (url ++ [')']))

/-- The literal markdown of a link, `f"[{anchor}]({url})"`. -/
def linkMarkdownOf (anchor url : Str) : Str :=
  '[' :: (anchor ++ ']' :: '(' :: (url ++ [')']))

/-- The inner loop of `split_nodes_image` over the extracted images:
split the remaining text on each image markdown in turn, emitting text
and image nodes; append the remaining text at the end. -/
def imgLoop : List (Str × Str) → Str → List TextNode
  | [], txt => if txt.isEmpty then [] else [⟨txt, .text, none⟩]
  | (alt, url) :: rest, txt =>
    let md := imageMarkdownOf alt url
    match pySplit1 md txt with
    | [before, after] =>
      (if before.isEmpty then [] else [⟨before, .text, none⟩])
        ++ ⟨alt, .image, some url⟩ :: imgLoop rest after
    | _ =>
      if txt == md then [⟨alt, .image, some url⟩]
      else if txt.isEmpty then [] else [⟨txt, .text, none⟩]

/-- `split_nodes_image`: split TEXT nodes on markdown image syntax. -/
def split_nodes_image : List TextNode → List TextNode
  | [] => []
  | n :: rest =>
    if n.textType != .text then n :: split_nodes_image rest
    else
      let images := extract_markdown_images n.text
      if images.isEmpty then
        (if n.text.isEmpty then [] else [n]) ++ split_nodes_image rest
      else imgLoop images n.text ++ split_nodes_image rest

/-- The inner loop of `split_nodes_link`, as for images. -/
def linkLoop : List (Str × Str) → Str → List TextNode
  | [], txt => if txt.isEmpty then [] else [⟨txt, .text, none⟩]
  | (anchor, url) :: rest, txt =>
    let md := linkMarkdownOf anchor url
    match pySplit1 md txt with
    | [before, after] =>
      (if before.isEmpty then [] else [⟨before, .text, none⟩])
        ++ ⟨anchor, .link, some url⟩ :: linkLoop rest after
    | _ =>
      if txt == md then [⟨anchor, .link, some url⟩]
      else if txt.isEmpty then [] else [⟨txt, .text, none⟩]

/-- `split_nodes_link`: split TEXT nodes on markdown link syntax. -/
def split_nodes_link : List TextNode → List TextNode
  | [] => []
  | n :: rest =>
    if n.textType != .text then n :: split_nodes_link rest
    else
      let links := extract_markdown_links n.text
      if links.isEmpty then
        (if n.text.isEmpty then [] else [n]) ++ split_nodes_link rest
      else linkLoop links n.text ++ split_nodes_link rest

/-- Turn the pieces of a delimiter split into nodes: skip empty pieces,
even-indexed pieces stay TEXT, odd-indexed pieces get the target type. -/
def partsToNodes (tt : TextType) : Nat → List Str → List TextNode
  | _, [] => []
  | i, p :: ps =>
    let tail := partsToNodes tt (i + 1) ps
    if p.isEmpty then tail
    else if i % 2 == 0 then ⟨p, .text, none⟩ :: tail
    else ⟨p, tt, none⟩ :: tail

/-- `split_nodes_delimiter`: split TEXT nodes on a literal delimiter,
failing when the split yields an even number of parts greater than one
(an unmatched delimiter). -/
def split_nodes_delimiter : List TextNode → Str → TextType → Except PyErr (List TextNode)
  | [], _, _ => .ok []
  | n :: rest, delim, tt =>
    if n.textType != .text then
      (split_nodes_delimiter rest delim tt).map (n :: ·)
    else
      let parts := pySplit delim n.text
      if parts.length % 2 == 0 then
        if parts.length > 1 then .error (.malformedInline delim n.text)
        else (split_nodes_delimiter rest delim tt).map (n :: ·)
      else
        (split_nodes_delimiter rest delim tt).map (partsToNodes tt 0 parts ++ ·)

/-- `text_to_textnodes`: the full tokenizer pipeline — one TEXT node, then
the image pass, the link pass, and the three delimiter passes. -/
def text_to_textnodes (t : Str) : Except PyErr (List TextNode) := do
  let nodes := [⟨t, .text, none⟩]
  let nodes := split_nodes_image nodes
  let nodes := split_nodes_link nodes
  let nodes ← split_nodes_delimiter nodes (("**").toList) .bold
  let nodes ← split_nodes_delimiter nodes (("_").toList) .italic
  let nodes ← split_nodes_delimiter nodes (("`").toList) .code
  return nodes

/-- `text_node_to_html_node` (`textnode.py`): convert a span to a leaf. -/
def text_node_to_html_node (n : TextNode) : Except PyErr HNode :=
  match n.textType with
  | .text => .ok (.leaf (some n.text) none [])
  | .bold => .ok (.leaf (some n.text) (some (("b").toList)) [])
  | .italic => .ok (.leaf (some n.text) (some (("i").toList)) [])
  | .code => .ok (.leaf (some n.text) (some (("code").toList)) [])
  | .link =>
    match n.url with
    | none => .error .linkUrlMissing
    | some u => .ok (.leaf (some n.text) (some (("a").toList)) [((("href").toList), u)])
  | .image =>
    match n.url with
    | none => .error .imageUrlMissing
    | some u =>
      .ok (.leaf (some []) (some (("img").toList)) [((("src").toList), u), ((("alt").toList), n.text)])

/-! ## Block segmenter, classifier and converters (`block_markdown.py`) -/

/-- The `BlockType` enum. -/
inductive BlockType where
  | paragraph
  | heading
  | code
  | quote
  | unorderedList
  | orderedList
deriving DecidableEq, Repr

/-- The filtering loop of `markdown_to_blocks`: skip empty pieces, strip
each piece, keep it only if non-empty after stripping. -/
def filterBlocks : List Str → List Str
  | [] => []
  | b :: rest =>
    if b.isEmpty then filterBlocks rest
    else
      let s := pyStrip b
      if s.isEmpty then filterBlocks rest else s :: filterBlocks rest

/-- `markdown_to_blocks`: split on `"\n\n"`, strip each piece, drop the
pieces that are empty after stripping. -/
def markdown_to_blocks (markdown : Str) : List Str :=
  filterBlocks (pySplit (("\n\n").toList) markdown)

/-- The heading regex `^#{1,6} ` of `block_to_block_type`: a run of one to
six `#` characters followed by a space (seven or more `#` never match,
since every backtracking attempt hits another `#` where the space is
required). -/
def headingMatch (l : Str) : Bool :=
  let h := (l.takeWhile (fun c => c == '#')).length
  if 1 ≤ h ∧ h ≤ 6 then
    (match l.drop h with
     | ' ' :: _ => true
     | _ => false)
  else false

/-- The ordered-list marker `f"{k}. "`. -/
def olMarker (k : Nat) : Str := natStr k ++ ((". ").toList)

/-- The ordered-list loop of `block_to_block_type`: every line must start
with `"1. "`, `"2. "`, ... in order. -/
def olCheck : Nat → List Str → Bool
  | _, [] => true
  | k, l :: ls => (olMarker k).isPrefixOf l && olCheck (k + 1) ls

/-- `block_to_block_type`: the ordered decision list over the block's
lines (heading, code, quote, unordered list, ordered list, paragraph). -/
def block_to_block_type (block : Str) : BlockType :=
  let lines := pySplit (("\n").toList) block
  if headingMatch (lines.headD []) then .heading
  else if decide (6 < block.length) && (("```").toList).isPrefixOf block
      && (("```").toList).isSuffixOf block then .code
  else if lines.all (fun l => ((">").toList).isPrefixOf l) then .quote
  else if lines.all (fun l => (("* ").toList).isPrefixOf l || (("- ").toList).isPrefixOf l) then
    .unorderedList
  else if olCheck 1 lines then .orderedList
  else .paragraph

/-- `text_to_children`: tokenize inline text and convert every span. -/
def text_to_children (t : Str) : Except PyErr (List HNode) := do
  let tns ← text_to_textnodes t
  tns.mapM text_node_to_html_node

/-- `paragraph_block_to_html_node`: replace newlines with spaces,
tokenize, wrap in a `p` parent. -/
def paragraph_block_to_html_node (block : Str) : Except PyErr HNode := do
  let content := block.map (fun c => if c == '\n' then ' ' else c)
  let children ← text_to_children content
  return .parent (some (("p").toList)) (some children) []

/-- `heading_block_to_html_node`: count the leading `#` of the first
line, take the rest of that line (after the space) stripped, tokenize,
wrap in an `h{level}` parent. -/
def heading_block_to_html_node (block : Str) : Except PyErr HNode := do
  let lines := pySplit (("\n").toList) block
  let firstLine := lines.headD []
  let level := (firstLine.takeWhile (fun c => c == '#')).length
  let content := pyStrip (firstLine.drop (level + 1))
  let children ← text_to_children content
  return .parent (some ('h' :: natStr level)) (some children) []

/-- `code_block_to_html_node`: check the fences, take `block[3:-3]`,
strip all leading and trailing newlines (`str.strip('\n')`), and wrap the
literal content as a leaf with tag `code` inside a `pre` parent. -/
def code_block_to_html_node (block : Str) : Except PyErr HNode :=
  if (("```").toList).isPrefixOf block && (("```").toList).isSuffixOf block then
    let content := pyStripChars (("\n").toList) ((block.take (block.length - 3)).drop 3)
    .ok (.parent (some (("pre").toList))
          (some [.leaf (some content) (some (("code").toList)) []]) [])
  else .error .invalidCodeBlock

/-- `quote_block_to_html_node`: `line.lstrip('> ').lstrip('>')` on every
line, rejoin with newlines, tokenize, wrap in a `blockquote` parent. -/
def quote_block_to_html_node (block : Str) : Except PyErr HNode := do
  let lines := pySplit (("\n").toList) block
  let contentLines := lines.map (fun l => pyLstripChars ((">").toList) (pyLstripChars (("> ").toList) l))
  let content := joinSep (("\n").toList) contentLines
  let children ← text_to_children content
  return .parent (some (("blockquote").toList)) (some children) []

/-- The per-line loop of `unordered_list_block_to_html_node`: skip empty
lines, drop the two marker characters, tokenize, wrap each in `li`. -/
def ulItems : List Str → Except PyErr (List HNode)
  | [] => .ok []
  | l :: rest =>
    if l.isEmpty then ulItems rest
    else do
      let children ← text_to_children (l.drop 2)
      let tail ← ulItems rest
      return (.parent (some (("li").toList)) (some children) []) :: tail

/-- `unordered_list_block_to_html_node`. -/
def unordered_list_block_to_html_node (block : Str) : Except PyErr HNode := do
  let items ← ulItems (pySplit (("\n").toList) block)
  return .parent (some (("ul").toList)) (some items) []

/-- The per-line loop of `ordered_list_block_to_html_node`: skip empty
lines and lines without a space, drop everything up to and including the
first space, tokenize, wrap each in `li`. -/
def olItems : List Str → Except PyErr (List HNode)
  | [] => .ok []
  | l :: rest =>
    if l.isEmpty then olItems rest
    else
      match l.findIdx? (fun c => c == ' ') with
      | none => olItems rest
      | some i => do
        let children ← text_to_children (l.drop (i + 1))
        let tail ← olItems rest
        return (.parent (some (("li").toList)) (some children) []) :: tail

/-- `ordered_list_block_to_html_node`. -/
def ordered_list_block_to_html_node (block : Str) : Except PyErr HNode := do
  let items ← olItems (pySplit (("\n").toList) block)
  return .parent (some (("ol").toList)) (some items) []

/-- The per-block dispatch of `markdown_to_html_node`. -/
def block_to_html_node (block : Str) : Except PyErr HNode :=
  match block_to_block_type block with
  | .paragraph => paragraph_block_to_html_node block
  | .heading => heading_block_to_html_node block
  | .code => code_block_to_html_node block
  | .quote => quote_block_to_html_node block
  | .unorderedList => unordered_list_block_to_html_node block
  | .orderedList => ordered_list_block_to_html_node block

/-- `markdown_to_html_node`: segment, convert every block, wrap the
results in a `div` parent. -/
def markdown_to_html_node (markdown : Str) : Except PyErr HNode := do
  let blocks := markdown_to_blocks markdown
  let children ← blocks.mapM block_to_html_node
  return .parent (some (("div").toList)) (some children) []

/-- The line scan of `extract_title`. -/
def titleLoop : List Str → Except PyErr Str
  | [] => .error .noTitleFound
  | l :: rest =>
    let s := pyStrip l
    if (("# ").toList).isPrefixOf s then .ok (pyStrip (s.drop 2)) else titleLoop rest

/-- `extract_title`: first line whose stripped form starts with `"# "`;
return its stripped remainder, or fail when no such line exists. -/
def extract_title (markdown : Str) : Except PyErr Str :=
  titleLoop (pySplit (("\n").toList) markdown)

/-! ## Spec-side definitions for the refinement claims about the quote
and code conversions -/

/-- The quote line stripping as the spec's words describe it: strip a
leading `>` and at most one following space, leaving any further leading
spaces or `>` characters in place. -/
def quoteLineStripClaim (l : Str) : Str :=
  match l with
  | '>' :: ' ' :: t => t
  | '>' :: t => t
  | t => t

/-- The quote conversion as the spec's words describe it. -/
def quote_block_to_html_node_claim (block : Str) : Except PyErr HNode := do
  let lines := pySplit (("\n").toList) block
  let children ← text_to_children (joinSep (("\n").toList) (lines.map quoteLineStripClaim))
  return .parent (some (("blockquote").toList)) (some children) []

/-- The quote line stripping as the code actually behaves, phrased
directly: drop all leading `>` and space characters. -/
def quoteLineStripAmended (l : Str) : Str :=
  l.dropWhile (fun c => (c == '>') || (c == ' '))

/-- The amended quote conversion. -/
def quote_block_to_html_node_amended (block : Str) : Except PyErr HNode := do
  let lines := pySplit (("\n").toList) block
  let children ← text_to_children (joinSep (("\n").toList) (lines.map quoteLineStripAmended))
  return .parent (some (("blockquote").toList)) (some children) []

/-- The code-content stripping as the spec's words describe it: strip
exactly one leading and/or one trailing newline, no more. -/
def stripOneNewlineClaim (s : Str) : Str :=
  let s1 := match s with
    | '\n' :: t => t
    | t => t
  match s1.getLast? with
  | some '\n' => s1.dropLast
  | _ => s1

/-- The code-block conversion as the spec's words describe it. -/
def code_block_to_html_node_claim (block : Str) : Except PyErr HNode :=
  .ok (.parent (some (("pre").toList))
        (some [.leaf (some (stripOneNewlineClaim ((block.take (block.length - 3)).drop 3)))
               (some (("code").toList)) []]) [])

/-- The code-content stripping as the code actually behaves, phrased
directly: drop all leading and all trailing newlines. -/
def stripAllNewlinesAmended (s : Str) : Str :=
  ((s.dropWhile (fun c => c == '\n')).reverse.dropWhile (fun c => c == '\n')).reverse

/-- The amended code-block conversion. -/
def code_block_to_html_node_amended (block : Str) : Except PyErr HNode :=
  .ok (.parent (some (("pre").toList))
        (some [.leaf (some (stripAllNewlinesAmended ((block.take (block.length - 3)).drop 3)))
               (some (("code").toList)) []]) [])

/-- Projection used to separate concrete `HNode` results: the values of
the leaf children of a parent node. -/
def childLeafValues : HNode → List (Option Str)
  | .parent _ (some cs) _ =>
    cs.map (fun c => match c with
      | .leaf v _ _ => v
      | _ => none)
  | _ => []

/-- The same projection through `Except`. -/
def exceptChildLeafValues (e : Except PyErr HNode) : Option (List (Option Str)) :=
  match e with
  | .ok n => some (childLeafValues n)
  | .error _ => none

/-! ## Lemmas about the split primitive -/

lemma splitFuel_nil (sep : Str) (f : Nat) : splitFuel sep f [] = [[]] := by
  cases f <;> rfl

lemma splitFuel_stable (sep : Str) :
    ∀ n f g s, s.length ≤ n → s.length ≤ f → s.length ≤ g →
      splitFuel sep f s = splitFuel sep g s := by
  intro n
  induction n with
  | zero =>
    intro f g s _ _ hn
    match s, hn with
    | [], _ => simp [splitFuel_nil]
  | succ n ih =>
    intro f g s hn hf hg
    match s with
    | [] => simp [splitFuel_nil]
    | c :: rest =>
      match f, hf with
      | f + 1, hf =>
        match g, hg with
        | g + 1, hg =>
          simp only [splitFuel]
          by_cases h : ((!sep.isEmpty) && sep.isPrefixOf (c :: rest)) = true
          · have hsep : 1 ≤ sep.length := by
              have : sep.isEmpty = false := by
                rcases Bool.and_eq_true .. |>.mp h with ⟨h1, _⟩
                simpa using h1
              cases sep with
              | nil => simp [List.isEmpty] at this
              | cons a t => simp
            rw [if_pos h, if_pos h]
            have hdrop : ((c :: rest).drop sep.length).length ≤ rest.length := by
              rw [List.length_drop]
              simp only [List.length_cons]
              omega
            have h1 : ((c :: rest).drop sep.length).length ≤ n := by
              simp only [List.length_cons] at hn; omega
            have h2 : ((c :: rest).drop sep.length).length ≤ f := by
              simp only [List.length_cons] at hf; omega
            have h3 : ((c :: rest).drop sep.length).length ≤ g := by
              simp only [List.length_cons] at hg; omega
            rw [ih f g _ h1 h2 h3]
          · rw [if_neg h, if_neg h]
            have h1 : rest.length ≤ n := by
              simp only [List.length_cons] at hn; omega
            have h2 : rest.length ≤ f := by
              simp only [List.length_cons] at hf; omega
            have h3 : rest.length ≤ g := by
              simp only [List.length_cons] at hg; omega
            rw [ih f g _ h1 h2 h3]

lemma pySplit_nil (sep : Str) : pySplit sep [] = [[]] := rfl

lemma pySplit_cons_pos {sep : Str} {c : Char} {rest : Str}
    (h : ((!sep.isEmpty) && sep.isPrefixOf (c :: rest)) = true) :
    pySplit sep (c :: rest) = [] :: pySplit sep ((c :: rest).drop sep.length) := by
  have hsep : 1 ≤ sep.length := by
    have : sep.isEmpty = false := by
      rcases Bool.and_eq_true .. |>.mp h with ⟨h1, _⟩
      simpa using h1
    cases sep with
    | nil => simp [List.isEmpty] at this
    | cons a t => simp
  show splitFuel sep (c :: rest).length (c :: rest) = _
  rw [show (c :: rest).length = rest.length + 1 from rfl]
  simp only [splitFuel, if_pos h]
  congr 1
  apply splitFuel_stable sep ((c :: rest).drop sep.length).length
  · exact le_rfl
  · rw [List.length_drop]; simp only [List.length_cons]; omega
  · exact le_rfl

lemma pySplit_cons_neg {sep : Str} {c : Char} {rest : Str}
    (h : ((!sep.isEmpty) && sep.isPrefixOf (c :: rest)) = false) :
    pySplit sep (c :: rest) = consHead c (pySplit sep rest) := by
  show splitFuel sep (c :: rest).length (c :: rest) = _
  rw [show (c :: rest).length = rest.length + 1 from rfl]
  simp only [splitFuel]
  rw [if_neg (by simp [h])]
  rfl

lemma consHead_ne_nil (c : Char) (l : List Str) : consHead c l ≠ [] := by
  cases l <;> simp [consHead]

lemma pySplit_ne_nil (sep s : Str) : pySplit sep s ≠ [] := by
  cases s with
  | nil => simp [pySplit_nil]
  | cons c rest =>
    by_cases h : ((!sep.isEmpty) && sep.isPrefixOf (c :: rest)) = true
    · rw [pySplit_cons_pos h]; simp
    · rw [pySplit_cons_neg (Bool.eq_false_iff.mpr h)]
      exact consHead_ne_nil c _

lemma pySplit_head_pref (sep : Str) :
    ∀ n s p ps, s.length ≤ n → pySplit sep s = p :: ps → p <+: s := by
  intro n
  induction n with
  | zero =>
    intro s p ps hn h
    match s, hn with
    | [], _ =>
      rw [pySplit_nil] at h
      cases h
      exact List.prefix_rfl
  | succ n ih =>
    intro s p ps hn h
    match s with
    | [] =>
      rw [pySplit_nil] at h
      cases h
      exact List.prefix_rfl
    | c :: rest =>
      by_cases hc : ((!sep.isEmpty) && sep.isPrefixOf (c :: rest)) = true
      · rw [pySplit_cons_pos hc] at h
        cases h
        exact List.nil_prefix
      · rw [pySplit_cons_neg (Bool.eq_false_iff.mpr hc)] at h
        obtain ⟨p0, ps0, h0⟩ : ∃ p0 ps0, pySplit sep rest = p0 :: ps0 := by
          rcases hq : pySplit sep rest with _ | ⟨p0, ps0⟩
          · exact absurd hq (pySplit_ne_nil sep rest)
          · exact ⟨p0, ps0, rfl⟩
        rw [h0] at h
        simp only [consHead] at h
        injection h with h1 h2
        subst h1
        have hrest : rest.length ≤ n := by
          simp only [List.length_cons] at hn; omega
        have := ih rest p0 ps0 hrest h0
        exact List.cons_prefix_cons.mpr ⟨rfl, this⟩

lemma pySplit_no_inf {sep : Str} (hsep : sep ≠ []) :
    ∀ n s, s.length ≤ n → ∀ p ∈ pySplit sep s, ¬ sep <:+: p := by
  intro n
  induction n with
  | zero =>
    intro s hn p hp
    match s, hn with
    | [], _ =>
      rw [pySplit_nil] at hp
      simp only [List.mem_singleton] at hp
      subst hp
      rw [List.infix_nil]
      exact hsep
  | succ n ih =>
    intro s hn p hp
    match s with
    | [] =>
      rw [pySplit_nil] at hp
      simp only [List.mem_singleton] at hp
      subst hp
      rw [List.infix_nil]
      exact hsep
    | c :: rest =>
      have hrest : rest.length ≤ n := by
        simp only [List.length_cons] at hn; omega
      by_cases hc : ((!sep.isEmpty) && sep.isPrefixOf (c :: rest)) = true
      · rw [pySplit_cons_pos hc] at hp
        rcases List.mem_cons.mp hp with h | h
        · subst h
          rw [List.infix_nil]
          exact hsep
        · have hslen : 1 ≤ sep.length := by
            cases sep with
            | nil => exact absurd rfl hsep
            | cons a t => simp
          have hd : ((c :: rest).drop sep.length).length ≤ n := by
            rw [List.length_drop]
            simp only [List.length_cons]
            omega
          exact ih _ hd p h
      · rw [pySplit_cons_neg (Bool.eq_false_iff.mpr hc)] at hp
        obtain ⟨p0, ps0, h0⟩ : ∃ p0 ps0, pySplit sep rest = p0 :: ps0 := by
          rcases hq : pySplit sep rest with _ | ⟨p0, ps0⟩
          · exact absurd hq (pySplit_ne_nil sep rest)
          · exact ⟨p0, ps0, rfl⟩
        rw [h0] at hp
        simp only [consHead] at hp
        rcases List.mem_cons.mp hp with h | h
        · subst h
          intro hinf
          rcases List.infix_cons_iff.mp hinf with hpre | hinf2
          · have hp0 : p0 <+: rest := pySplit_head_pref sep n rest p0 ps0 hrest h0
            have : sep <+: c :: rest := by
              refine hpre.trans (List.cons_prefix_cons.mpr ⟨rfl, hp0⟩)
            have hbool : sep.isPrefixOf (c :: rest) = true :=
              List.isPrefixOf_iff_prefix.mpr this
            have : ((!sep.isEmpty) && sep.isPrefixOf (c :: rest)) = true := by
              have : sep.isEmpty = false := by
                cases sep with
                | nil => exact absurd rfl hsep
                | cons a t => rfl
              simp [this, hbool]
            exact hc this
          · exact ih rest hrest p0 (h0 ▸ List.mem_cons_self p0 ps0) hinf2
        · exact ih rest hrest p (h0 ▸ List.mem_cons_of_mem p0 h)

lemma pySplit_of_no_inf {sep : Str} :
    ∀ n s, s.length ≤ n → ¬ sep <:+: s → pySplit sep s = [s] := by
  intro n
  induction n with
  | zero =>
    intro s hn _
    match s, hn with
    | [], _ => exact pySplit_nil sep
  | succ n ih =>
    intro s hn hno
    match s with
    | [] => exact pySplit_nil sep
    | c :: rest =>
      have hrest : rest.length ≤ n := by
        simp only [List.length_cons] at hn; omega
      have hc : ((!sep.isEmpty) && sep.isPrefixOf (c :: rest)) = false := by
        rcases hb : ((!sep.isEmpty) && sep.isPrefixOf (c :: rest)) with _ | _
        · rfl
        · exfalso
          rcases Bool.and_eq_true .. |>.mp hb with ⟨_, h2⟩
          exact hno (List.IsPrefix.isInfix (List.isPrefixOf_iff_prefix.mp h2))
      rw [pySplit_cons_neg hc]
      have hno2 : ¬ sep <:+: rest := fun h => hno (List.infix_cons h)
      rw [ih rest hrest hno2]
      rfl

/-- Every piece of `pySplit sep s` contains no occurrence of the
(non-empty) separator. -/
lemma pySplit_pieces_no_occ {sep : Str} (hsep : sep ≠ []) {s : Str} :
    ∀ p ∈ pySplit sep s, ¬ sep <:+: p :=
  pySplit_no_inf hsep s.length s le_rfl

/-- A string without an occurrence of the separator splits into itself. -/
lemma pySplit_eq_self {sep s : Str} (h : ¬ sep <:+: s) : pySplit sep s = [s] :=
  pySplit_of_no_inf s.length s le_rfl h

/-- Characters of the split pieces are characters of the input. -/
lemma pySplit_chars (sep : Str) :
    ∀ n s, s.length ≤ n → ∀ p ∈ pySplit sep s, ∀ c ∈ p, c ∈ s := by
  intro n
  induction n with
  | zero =>
    intro s hn p hp c hc
    match s, hn with
    | [], _ =>
      rw [pySplit_nil] at hp
      simp only [List.mem_singleton] at hp
      subst hp
      simp at hc
  | succ n ih =>
    intro s hn p hp c hc
    match s with
    | [] =>
      rw [pySplit_nil] at hp
      simp only [List.mem_singleton] at hp
      subst hp
      simp at hc
    | d :: rest =>
      have hrest : rest.length ≤ n := by
        simp only [List.length_cons] at hn; omega
      by_cases hcnd : ((!sep.isEmpty) && sep.isPrefixOf (d :: rest)) = true
      · rw [pySplit_cons_pos hcnd] at hp
        rcases List.mem_cons.mp hp with h | h
        · subst h; simp at hc
        · have hslen : 1 ≤ sep.length := by
            have : sep.isEmpty = false := by
              rcases Bool.and_eq_true .. |>.mp hcnd with ⟨h1, _⟩
              simpa using h1
            cases sep with
            | nil => simp [List.isEmpty] at this
            | cons a t => simp
          have hd : ((d :: rest).drop sep.length).length ≤ n := by
            rw [List.length_drop]
            simp only [List.length_cons]
            omega
          exact List.mem_of_mem_drop (ih _ hd p h c hc)
      · rw [pySplit_cons_neg (Bool.eq_false_iff.mpr hcnd)] at hp
        obtain ⟨p0, ps0, h0⟩ : ∃ p0 ps0, pySplit sep rest = p0 :: ps0 := by
          rcases hq : pySplit sep rest with _ | ⟨p0, ps0⟩
          · exact absurd hq (pySplit_ne_nil sep rest)
          · exact ⟨p0, ps0, rfl⟩
        rw [h0] at hp
        simp only [consHead] at hp
        rcases List.mem_cons.mp hp with h | h
        · subst h
          rcases List.mem_cons.mp hc with h | h
          · subst h; exact List.mem_cons_self c rest
          · exact List.mem_cons_of_mem d
              (ih rest hrest p0 (h0 ▸ List.mem_cons_self p0 ps0) c h)
        · exact List.mem_cons_of_mem d
            (ih rest hrest p (h0 ▸ List.mem_cons_of_mem p0 h) c hc)

/-- Greedy split of `p ++ sep ++ t` for a doubled-character separator
`[ch, ch]`: when `p` contains no occurrence and does not end in `ch`, the
leftmost occurrence is exactly the explicit separator. -/
lemma pySplit_append_two (ch : Char) (t : Str) :
    ∀ p : Str, ¬ [ch, ch] <:+: p → p.getLast? ≠ some ch →
      pySplit [ch, ch] (p ++ [ch, ch] ++ t) = p :: pySplit [ch, ch] t := by
  intro p
  induction p with
  | nil =>
    intro _ _
    have hpos : ((!(List.isEmpty [ch, ch])) && List.isPrefixOf [ch, ch] (ch :: ch :: t)) = true := by
      have h2 : List.isPrefixOf [ch, ch] (ch :: ch :: t) = true :=
        List.isPrefixOf_iff_prefix.mpr ⟨t, rfl⟩
      simp [h2]
    show pySplit [ch, ch] (ch :: ch :: t) = [] :: pySplit [ch, ch] t
    rw [pySplit_cons_pos hpos]
    rfl
  | cons c p' ih =>
    intro hno hlast
    match hp' : p' with
    | [] =>
      have hc : c ≠ ch := by
        intro h
        subst h
        simp at hlast
      have hneg : ((!(List.isEmpty [ch, ch])) && List.isPrefixOf [ch, ch] (c :: ([] ++ [ch, ch] ++ t))) = false := by
        simp only [List.nil_append]
        have hpre : ¬ [ch, ch] <+: (c :: ch :: ch :: t) := by
          intro h
          rcases List.cons_prefix_cons.mp h with ⟨h1, _⟩
          exact hc h1.symm
        have h2 : List.isPrefixOf [ch, ch] (c :: ch :: ch :: t) = false :=
          Bool.eq_false_iff.mpr (fun hb => hpre (List.isPrefixOf_iff_prefix.mp hb))
        simp [h2]
      rw [show (c :: [] : Str) ++ [ch, ch] ++ t = c :: ([] ++ [ch, ch] ++ t) by simp]
      rw [pySplit_cons_neg hneg]
      have hbase : pySplit [ch, ch] ([] ++ [ch, ch] ++ t) = [] :: pySplit [ch, ch] t := by
        have hpos : ((!(List.isEmpty [ch, ch])) && List.isPrefixOf [ch, ch] (ch :: ch :: t)) = true := by
          have h2 : List.isPrefixOf [ch, ch] (ch :: ch :: t) = true :=
            List.isPrefixOf_iff_prefix.mpr ⟨t, rfl⟩
          simp [h2]
        show pySplit [ch, ch] (ch :: ch :: t) = [] :: pySplit [ch, ch] t
        rw [pySplit_cons_pos hpos]
        rfl
      rw [hbase]
      rfl
    | d :: p'' =>
      have hneg : ((!(List.isEmpty [ch, ch])) && List.isPrefixOf [ch, ch] (c :: ((d :: p'') ++ [ch, ch] ++ t))) = false := by
        have hpre : ¬ [ch, ch] <+: (c :: ((d :: p'') ++ [ch, ch] ++ t)) := by
          intro h
          rcases List.cons_prefix_cons.mp h with ⟨h1, h2⟩
          rcases List.cons_prefix_cons.mp h2 with ⟨h3, _⟩
          apply hno
          refine List.IsPrefix.isInfix ?_
          rw [← h1, ← h3]
          exact List.cons_prefix_cons.mpr ⟨rfl, List.cons_prefix_cons.mpr ⟨rfl, List.nil_prefix⟩⟩
        have h2 : List.isPrefixOf [ch, ch] (c :: ((d :: p'') ++ [ch, ch] ++ t)) = false :=
          Bool.eq_false_iff.mpr (fun hb => hpre (List.isPrefixOf_iff_prefix.mp hb))
        simpa using h2
      rw [show (c :: (d :: p'') : Str) ++ [ch, ch] ++ t = c :: ((d :: p'') ++ [ch, ch] ++ t) by simp]
      rw [pySplit_cons_neg hneg]
      have ih2 := ih (fun h => hno (List.infix_cons h))
        (by
          rw [List.getLast?_cons_cons] at hlast
          exact hlast)
      rw [ih2]
      rfl

/-- Splitting the separator-joined list of pieces recovers the pieces,
when every piece is occurrence-free and does not end in the separator
character. -/
lemma pySplit_joinSep_two (ch : Char) :
    ∀ bs : List Str, bs ≠ [] →
      (∀ b ∈ bs, ¬ [ch, ch] <:+: b ∧ b.getLast? ≠ some ch) →
      pySplit [ch, ch] (joinSep [ch, ch] bs) = bs := by
  intro bs
  induction bs with
  | nil => intro h _; exact absurd rfl h
  | cons b bs' ih =>
    intro _ hcond
    match bs' with
    | [] =>
      show pySplit [ch, ch] b = [b]
      exact pySplit_eq_self (hcond b (List.mem_cons_self b []) ).1
    | b' :: rest =>
      have hjoin : joinSep [ch, ch] (b :: b' :: rest) = b ++ [ch, ch] ++ joinSep [ch, ch] (b' :: rest) := by
        simp [joinSep]
      rw [hjoin]
      obtain ⟨h1, h2⟩ := hcond b (List.mem_cons_self b _)
      rw [pySplit_append_two ch _ b h1 h2]
      congr 1
      exact ih (by simp) (fun x hx => hcond x (List.mem_cons_of_mem b hx))

/-! ## Lemmas about stripping -/

lemma dropWhile_head_not (p : Char → Bool) :
    ∀ l : Str, ∀ c, (l.dropWhile p).head? = some c → p c = false := by
  intro l
  induction l with
  | nil => intro c h; simp at h
  | cons a t ih =>
    intro c h
    rw [List.dropWhile_cons] at h
    by_cases hp : p a = true
    · rw [if_pos hp] at h
      exact ih c h
    · rw [if_neg hp] at h
      simp only [List.head?_cons, Option.some.injEq] at h
      subst h
      exact Bool.eq_false_iff.mpr hp

lemma dropWhile_no_drop {p : Char → Bool} {l : Str}
    (h : ∀ c, l.head? = some c → p c = false) : l.dropWhile p = l := by
  cases l with
  | nil => rfl
  | cons a t =>
    rw [List.dropWhile_cons, if_neg]
    rw [h a rfl]
    simp

lemma dropWhile_idem (p : Char → Bool) (l : Str) :
    (l.dropWhile p).dropWhile p = l.dropWhile p :=
  dropWhile_no_drop (dropWhile_head_not p l)

lemma pyRstripBy_idem (p : Char → Bool) (s : Str) :
    pyRstripBy p (pyRstripBy p s) = pyRstripBy p s := by
  unfold pyRstripBy
  rw [List.reverse_reverse, dropWhile_idem]

lemma pyRstripBy_pref (p : Char → Bool) (s : Str) : pyRstripBy p s <+: s := by
  unfold pyRstripBy
  have h : (s.reverse.dropWhile p) <:+ s.reverse := List.dropWhile_suffix p
  have h2 := List.reverse_prefix.mpr h
  rwa [List.reverse_reverse] at h2

lemma head_of_pref {l₁ l₂ : Str} {c : Char} (h : l₁ <+: l₂)
    (hh : l₁.head? = some c) : l₂.head? = some c := by
  obtain ⟨r, rfl⟩ := h
  cases l₁ with
  | nil => simp at hh
  | cons a t => simpa using hh

lemma pyStripBy_lstrip_fixed (p : Char → Bool) (s : Str) :
    (pyStripBy p s).dropWhile p = pyStripBy p s := by
  apply dropWhile_no_drop
  intro c hc
  have h1 : (pyLstripBy p s).head? = some c :=
    head_of_pref (pyRstripBy_pref p (pyLstripBy p s)) hc
  exact dropWhile_head_not p s c h1

lemma pyStripBy_idem (p : Char → Bool) (s : Str) :
    pyStripBy p (pyStripBy p s) = pyStripBy p s := by
  show pyRstripBy p (pyLstripBy p (pyStripBy p s)) = pyStripBy p s
  rw [show pyLstripBy p (pyStripBy p s) = pyStripBy p s from pyStripBy_lstrip_fixed p s]
  show pyRstripBy p (pyRstripBy p (pyLstripBy p s)) = pyStripBy p s
  rw [pyRstripBy_idem]
  rfl

lemma pyStrip_idem (s : Str) : pyStrip (pyStrip s) = pyStrip s :=
  pyStripBy_idem pyIsSpace s

lemma getLast_of_pyRstripBy (p : Char → Bool) (s : Str) {c : Char}
    (h : (pyRstripBy p s).getLast? = some c) : p c = false := by
  unfold pyRstripBy at h
  have h2 : (s.reverse.dropWhile p).head? = some c := by
    have := List.head?_reverse (s.reverse.dropWhile p).reverse
    rw [List.reverse_reverse] at this
    rw [this]
    exact h
  exact dropWhile_head_not p s.reverse c h2

lemma getLast_of_pyStripBy (p : Char → Bool) (s : Str) {c : Char}
    (h : (pyStripBy p s).getLast? = some c) : p c = false :=
  getLast_of_pyRstripBy p (pyLstripBy p s) h

lemma pyStripBy_inf (p : Char → Bool) (s : Str) : pyStripBy p s <:+: s := by
  have h1 : pyStripBy p s <+: pyLstripBy p s := pyRstripBy_pref p (pyLstripBy p s)
  have h2 : pyLstripBy p s <:+ s := List.dropWhile_suffix p
  exact List.IsInfix.trans (List.IsPrefix.isInfix h1) (List.IsSuffix.isInfix h2)

lemma pyStripBy_eq_nil (p : Char → Bool) (s : Str)
    (h : ∀ c ∈ s, p c = true) : pyStripBy p s = [] := by
  have h1 : pyLstripBy p s = [] := List.dropWhile_eq_nil_iff.mpr h
  show pyRstripBy p (pyLstripBy p s) = []
  rw [h1]
  rfl

/-! ## Lemmas about the block segmenter -/

lemma mem_filterBlocks {l : List Str} {b : Str} (h : b ∈ filterBlocks l) :
    ∃ raw ∈ l, b = pyStrip raw ∧ b ≠ [] := by
  induction l with
  | nil => simp [filterBlocks] at h
  | cons x rest ih =>
    by_cases hx : x.isEmpty = true
    · rw [show filterBlocks (x :: rest) = filterBlocks rest by simp [filterBlocks, hx]] at h
      obtain ⟨raw, hm, he, hne⟩ := ih h
      exact ⟨raw, List.mem_cons_of_mem x hm, he, hne⟩
    · by_cases hs : (pyStrip x).isEmpty = true
      · rw [show filterBlocks (x :: rest) = filterBlocks rest by
          simp only [filterBlocks]
          rw [if_neg hx, if_pos hs]] at h
        obtain ⟨raw, hm, he, hne⟩ := ih h
        exact ⟨raw, List.mem_cons_of_mem x hm, he, hne⟩
      · rw [show filterBlocks (x :: rest) = pyStrip x :: filterBlocks rest by
          simp only [filterBlocks]
          rw [if_neg hx, if_neg hs]] at h
        rcases List.mem_cons.mp h with h | h
        · refine ⟨x, List.mem_cons_self x rest, h, ?_⟩
          subst h
          intro hnil
          rw [hnil] at hs
          exact hs rfl
        · obtain ⟨raw, hm, he, hne⟩ := ih h
          exact ⟨raw, List.mem_cons_of_mem x hm, he, hne⟩

lemma filterBlocks_eq_self {l : List Str}
    (h : ∀ b ∈ l, b ≠ [] ∧ pyStrip b = b) : filterBlocks l = l := by
  induction l with
  | nil => rfl
  | cons x rest ih =>
    obtain ⟨hne, hst⟩ := h x (List.mem_cons_self x rest)
    have hx : x.isEmpty = false := by
      cases x with
      | nil => exact absurd rfl hne
      | cons a t => rfl
    have hs : (pyStrip x).isEmpty = false := by
      rw [hst]
      exact hx
    simp only [filterBlocks]
    rw [if_neg (by simp [hx]), if_neg (by simp [hs]), hst]
    rw [ih (fun b hb => h b (List.mem_cons_of_mem x hb))]

lemma filterBlocks_nil_of_space {l : List Str}
    (h : ∀ b ∈ l, ∀ c ∈ b, pyIsSpace c = true) : filterBlocks l = [] := by
  induction l with
  | nil => rfl
  | cons x rest ih =>
    have hrest := ih (fun b hb => h b (List.mem_cons_of_mem x hb))
    by_cases hx : x.isEmpty = true
    · simp only [filterBlocks]
      rw [if_pos hx]
      exact hrest
    · have hs : pyStrip x = [] :=
        pyStripBy_eq_nil pyIsSpace x (h x (List.mem_cons_self x rest))
      simp only [filterBlocks]
      rw [if_neg hx, if_pos (by rw [hs]; rfl)]
      exact hrest

/-! ## Claim theorems -/

/-- C6: for every document `D`, `markdown_to_blocks D` contains no entry
that is empty or consists only of whitespace, and joining the blocks with
`"\n\n"` and segmenting again yields exactly the same blocks. -/
theorem segment_no_blank_and_idempotent (D : Str) :
    (∀ b ∈ markdown_to_blocks D, b ≠ [] ∧ ¬ (∀ c ∈ b, pyIsSpace c = true)) ∧
    markdown_to_blocks (joinSep (("\n\n").toList) (markdown_to_blocks D)) =
      markdown_to_blocks D := by
  have hnn : ("\n\n").toList = ['\n', '\n'] := rfl
  constructor
  · intro b hb
    obtain ⟨raw, _, hbe, hbne⟩ := mem_filterBlocks hb
    refine ⟨hbne, ?_⟩
    intro hall
    have h1 : pyStrip b = [] := pyStripBy_eq_nil pyIsSpace b hall
    have h2 : pyStrip b = b := by rw [hbe, pyStrip_idem]
    exact hbne (h2 ▸ h1)
  · by_cases hbs : markdown_to_blocks D = []
    · rw [hbs]
      rfl
    · have hcond : ∀ b ∈ markdown_to_blocks D,
          ¬ ['\n', '\n'] <:+: b ∧ b.getLast? ≠ some '\n' := by
        intro b hb
        obtain ⟨raw, hraw, hbe, hbne⟩ := mem_filterBlocks hb
        constructor
        · intro hinf
          have hbinf : b <:+: raw := hbe ▸ pyStripBy_inf pyIsSpace raw
          have hrawno : ¬ (("\n\n").toList) <:+: raw :=
            pySplit_pieces_no_occ (by decide) raw hraw
          rw [hnn] at hrawno
          exact hrawno (hinf.trans hbinf)
        · intro hl
          rw [hbe] at hl
          have hfalse : pyIsSpace '\n' = false :=
            getLast_of_pyStripBy pyIsSpace raw hl
          exact absurd hfalse (by decide)
      rw [hnn]
      show filterBlocks (pySplit (("\n\n").toList) (joinSep ['\n', '\n'] (markdown_to_blocks D))) = _
      rw [hnn]
      rw [pySplit_joinSep_two '\n' (markdown_to_blocks D) hbs hcond]
      apply filterBlocks_eq_self
      intro b hb
      obtain ⟨raw, _, hbe, hbne⟩ := mem_filterBlocks hb
      exact ⟨hbne, by rw [hbe, pyStrip_idem]⟩

/-- Witness for C6 at the concrete document `"a\n\nb"` and its block `"a"`. -/
theorem segment_no_blank_and_idempotent_witness :
    (("a").toList ≠ [] ∧ ¬ (∀ c ∈ ("a").toList, pyIsSpace c = true)) ∧
    markdown_to_blocks (joinSep (("\n\n").toList) (markdown_to_blocks (("a\n\nb").toList))) =
      markdown_to_blocks (("a\n\nb").toList) :=
  ⟨(segment_no_blank_and_idempotent (("a\n\nb").toList)).1 (("a").toList) (by decide),
   (segment_no_blank_and_idempotent (("a\n\nb").toList)).2⟩

/-- C8: the tokenizer applied to the empty string returns the empty
sequence of spans, not a sequence containing a single empty Text span. -/
theorem tokenize_empty_is_empty :
    text_to_textnodes [] = .ok [] ∧
    text_to_textnodes [] ≠ .ok [⟨[], .text, none⟩] := by
  constructor
  · rfl
  · intro h
    rw [show text_to_textnodes [] = .ok [] from rfl] at h
    simp at h

/-- C7: rendering a leaf without a value fails; rendering a parent whose
tag is absent or empty fails; rendering a parent whose children list is
absent (even with a good tag) fails; and a parent with a non-empty tag
and an empty (but present) children list renders to the empty element
pair `<t></t>`. -/
theorem render_failure_and_empty_parent :
    (∀ tag props, to_html (.leaf none tag props) = .error .leafValueMissing) ∧
    (∀ oc props, to_html (.parent none oc props) = .error .parentTagMissing) ∧
    (∀ oc props, to_html (.parent (some []) oc props) = .error .parentTagMissing) ∧
    (∀ t props, t ≠ [] → to_html (.parent (some t) none props) = .error .parentChildrenMissing) ∧
    (∀ t : Str, t ≠ [] →
      to_html (.parent (some t) (some []) []) =
        .ok ('<' :: t ++ '>' :: '<' :: '/' :: t ++ ['>'])) := by
  refine ⟨fun tag props => rfl, fun oc props => rfl, fun oc props => rfl, ?_, ?_⟩
  · intro t props ht
    cases t with
    | nil => exact absurd rfl ht
    | cons a t' => rfl
  · intro t ht
    cases t with
    | nil => exact absurd rfl ht
    | cons a t' =>
      show (match to_html_list [] with
        | .error e => Except.error e
        | .ok inner =>
            .ok ('<' :: ((a :: t') ++ props_to_html []) ++ '>' :: (inner ++ '<' :: '/' :: ((a :: t') ++ ['>'])))) = _
      show Except.ok ('<' :: ((a :: t') ++ props_to_html []) ++ '>' :: ([] ++ '<' :: '/' :: ((a :: t') ++ ['>']))) = _
      simp [props_to_html]

/-- Witness for C7 at the concrete tag `"p"`. -/
theorem render_failure_and_empty_parent_witness :
    to_html (.parent (some (("p").toList)) none []) = .error .parentChildrenMissing ∧
    to_html (.parent (some (("p").toList)) (some []) []) = .ok (("<p></p>").toList) := by
  constructor
  · exact render_failure_and_empty_parent.2.2.2.1 (("p").toList) [] (by decide)
  · have h := render_failure_and_empty_parent.2.2.2.2 (("p").toList) (by decide)
    rw [h]
    rfl

/-- C10: converting a document that is empty or consists only of
whitespace succeeds with a `div` parent having an empty (but present)
children list, which renders to exactly `<div></div>`. -/
theorem convert_blank_document (s : Str) (h : ∀ c ∈ s, pyIsSpace c = true) :
    markdown_to_html_node s = .ok (.parent (some (("div").toList)) (some []) []) ∧
    (markdown_to_html_node s).bind to_html = .ok (("<div></div>").toList) := by
  have hblocks : markdown_to_blocks s = [] := by
    apply filterBlocks_nil_of_space
    intro b hb c hc
    exact h c (pySplit_chars (("\n\n").toList) s.length s le_rfl b hb c hc)
  have hmain : markdown_to_html_node s = .ok (.parent (some (("div").toList)) (some []) []) := by
    unfold markdown_to_html_node
    rw [hblocks]
    rfl
  exact ⟨hmain, by rw [hmain]; rfl⟩

/-- Witness for C10 at the concrete whitespace document `"  \n\t\n "`. -/
theorem convert_blank_document_witness :
    markdown_to_html_node (("  \n\t\n ").toList) =
      .ok (.parent (some (("div").toList)) (some []) []) ∧
    (markdown_to_html_node (("  \n\t\n ").toList)).bind to_html =
      .ok (("<div></div>").toList) :=
  convert_blank_document (("  \n\t\n ").toList) (by decide)

lemma titleLoop_error_iff (ls : List Str) :
    titleLoop ls = .error .noTitleFound ↔
      ∀ l ∈ ls, (("# ").toList).isPrefixOf (pyStrip l) = false := by
  induction ls with
  | nil => simp [titleLoop]
  | cons x rest ih =>
    by_cases hx : (("# ").toList).isPrefixOf (pyStrip x) = true
    · simp only [titleLoop]
      rw [if_pos hx]
      constructor
      · intro h; cases h
      · intro h
        have := h x (List.mem_cons_self x rest)
        rw [hx] at this
        cases this
    · simp only [titleLoop]
      rw [if_neg hx]
      rw [ih]
      constructor
      · intro h l hl
        rcases List.mem_cons.mp hl with rfl | hl
        · exact Bool.eq_false_iff.mpr hx
        · exact h l hl
      · intro h l hl
        exact h l (List.mem_cons_of_mem x hl)

lemma titleLoop_find (ls : List Str) (l : Str)
    (h : ls.find? (fun l => (("# ").toList).isPrefixOf (pyStrip l)) = some l) :
    titleLoop ls = .ok (pyStrip ((pyStrip l).drop 2)) := by
  induction ls with
  | nil => simp at h
  | cons x rest ih =>
    by_cases hx : ((("# ").toList).isPrefixOf (pyStrip x)) = true
    · have hx2 : (['#', ' '] : Str).isPrefixOf (pyStrip x) = true := hx
      have h' : some x = some l := by simpa [List.find?, hx2] using h
      injection h' with h'
      subst h'
      simp only [titleLoop]
      rw [if_pos hx]
    · have hx2 : (['#', ' '] : Str).isPrefixOf (pyStrip x) = false := Bool.eq_false_iff.mpr hx
      have h' : rest.find? (fun l => (("# ").toList).isPrefixOf (pyStrip l)) = some l := by
        simpa [List.find?, hx2] using h
      simp only [titleLoop]
      rw [if_neg hx]
      exact ih h'

/-- C9: `extract_title` fails with `NoTitleFound` exactly when no line's
stripped form starts with `"# "`, and otherwise returns the stripped
remainder (after the marker) of the first such line; in particular it
fails on `"no heading here"`. -/
theorem extract_title_spec :
    (∀ md : Str,
      extract_title md = .error .noTitleFound ↔
        ∀ l ∈ pySplit (("\n").toList) md, (("# ").toList).isPrefixOf (pyStrip l) = false) ∧
    (∀ md l,
      (pySplit (("\n").toList) md).find? (fun l => (("# ").toList).isPrefixOf (pyStrip l)) = some l →
      extract_title md = .ok (pyStrip ((pyStrip l).drop 2))) ∧
    extract_title (("no heading here").toList) = .error .noTitleFound := by
  refine ⟨fun md => titleLoop_error_iff _, fun md l h => titleLoop_find _ l h, rfl⟩

/-- Witness for C9 at a document whose first H1 line carries surrounding
whitespace. -/
theorem extract_title_spec_witness :
    extract_title (("x\n  # T  \ny").toList) = .ok (("T").toList) := by
  have h := extract_title_spec.2.1 (("x\n  # T  \ny").toList) (("  # T  ").toList) (by decide)
  rw [h]
  rfl

lemma olCheck_iff :
    ∀ (ls : List Str) (k : Nat),
      olCheck k ls = true ↔
        ∀ i (h : i < ls.length), (olMarker (k + i)).isPrefixOf (ls.get ⟨i, h⟩) = true := by
  intro ls
  induction ls with
  | nil => intro k; simp [olCheck]
  | cons l ls ih =>
    intro k
    simp only [olCheck, Bool.and_eq_true]
    constructor
    · intro ⟨h0, hrest⟩ i hi
      match i with
      | 0 => simpa using h0
      | j + 1 =>
        have hj : j < ls.length := by simpa using hi
        have := (ih (k + 1)).mp hrest j hj
        rw [show k + 1 + j = k + (j + 1) by omega] at this
        simpa using this
    · intro h
      constructor
      · simpa using h 0 (by simp)
      · refine (ih (k + 1)).mpr ?_
        intro j hj
        have := h (j + 1) (by simpa using hj)
        rw [show k + (j + 1) = k + 1 + j by omega] at this
        simpa using this

lemma classify_ol_forward {block : Str}
    (h : block_to_block_type block = .orderedList) :
    olCheck 1 (pySplit (("\n").toList) block) = true := by
  simp only [block_to_block_type] at h
  split at h
  · cases h
  · split at h
    · cases h
    · split at h
      · cases h
      · split at h
        · cases h
        · split at h
          · assumption
          · cases h

lemma classify_ol_backward {block : Str}
    (h : olCheck 1 (pySplit (("\n").toList) block) = true) :
    block_to_block_type block = .orderedList := by
  obtain ⟨l0, rest, hls⟩ : ∃ l0 rest, pySplit (("\n").toList) block = l0 :: rest := by
    rcases hq : pySplit (("\n").toList) block with _ | ⟨l0, rest⟩
    · exact absurd hq (pySplit_ne_nil _ block)
    · exact ⟨l0, rest, rfl⟩
  rw [hls] at h
  have h0 : (olMarker 1).isPrefixOf l0 = true := by
    have := (olCheck_iff (l0 :: rest) 1).mp h 0 (by simp)
    simpa using this
  obtain ⟨r, hr⟩ : ∃ r, ['1', '.', ' '] ++ r = l0 :=
    List.isPrefixOf_iff_prefix.mp h0
  obtain ⟨r2, hr2⟩ : ∃ r2, l0 ++ r2 = block :=
    pySplit_head_pref _ block.length block l0 rest le_rfl hls
  have hblock : block = '1' :: ('.' :: ' ' :: r ++ r2) := by
    rw [← hr2, ← hr]
    rfl
  have hhead : headingMatch ((l0 :: rest).headD []) = false := by
    show headingMatch l0 = false
    rw [← hr]
    show headingMatch ('1' :: ('.' :: ' ' :: r)) = false
    unfold headingMatch
    rw [List.takeWhile_cons]
    simp
  have hpre : (("```").toList).isPrefixOf block = false := by
    rw [hblock]
    rfl
  have hquote : (l0 :: rest).all (fun l => ((">").toList).isPrefixOf l) = false := by
    rw [List.all_cons]
    have : ((">").toList).isPrefixOf l0 = false := by
      rw [← hr]; rfl
    rw [this]
    rfl
  have hul : (l0 :: rest).all
      (fun l => (("* ").toList).isPrefixOf l || (("- ").toList).isPrefixOf l) = false := by
    rw [List.all_cons]
    have h1 : (("* ").toList).isPrefixOf l0 = false := by
      rw [← hr]; rfl
    have h2 : (("- ").toList).isPrefixOf l0 = false := by
      rw [← hr]; rfl
    rw [h1, h2]
    rfl
  simp only [block_to_block_type]
  rw [hls]
  rw [if_neg (by rw [hhead]; simp)]
  rw [if_neg (by rw [hpre]; simp)]
  rw [if_neg (by rw [hquote]; simp)]
  rw [if_neg (by rw [hul]; simp)]
  rw [if_pos h]

/-- C5: `block_to_block_type` returns OrderedList exactly when the lines
start with `"1. "`, `"2. "`, ... in a strictly increasing sequence from 1
with no gaps; the spec's two concrete examples. -/
theorem classify_ordered_list (block : Str) :
    (block_to_block_type block = .orderedList ↔
      ∀ i (h : i < (pySplit (("\n").toList) block).length),
        (olMarker (i + 1)).isPrefixOf ((pySplit (("\n").toList) block).get ⟨i, h⟩) = true) ∧
    block_to_block_type (("1. a\n2. b").toList) = .orderedList ∧
    block_to_block_type (("1. a\n3. b").toList) = .paragraph := by
  refine ⟨?_, by decide, by decide⟩
  constructor
  · intro h
    have := (olCheck_iff _ 1).mp (classify_ol_forward h)
    intro i hi
    have h2 := this i hi
    rw [show 1 + i = i + 1 by omega] at h2
    exact h2
  · intro h
    apply classify_ol_backward
    apply (olCheck_iff _ 1).mpr
    intro i hi
    have h2 := h i hi
    rw [show i + 1 = 1 + i by omega] at h2
    exact h2

/-- Witness for C5: instantiating the characterization on the concrete
ordered-list block `"1. a\n2. b"`. -/
theorem classify_ordered_list_witness :
    ∀ i (h : i < (pySplit (("\n").toList) (("1. a\n2. b").toList)).length),
      (olMarker (i + 1)).isPrefixOf
        ((pySplit (("\n").toList) (("1. a\n2. b").toList)).get ⟨i, h⟩) = true :=
  (classify_ordered_list (("1. a\n2. b").toList)).1.mp
    (classify_ordered_list (("1. a\n2. b").toList)).2.1

lemma snd_error_char :
    ∀ (ns : List TextNode) (delim : Str) (tt : TextType) (e : PyErr),
      split_nodes_delimiter ns delim tt = .error e →
      ∃ n ∈ ns, n.textType = .text ∧ e = .malformedInline delim n.text ∧
        (pySplit delim n.text).length % 2 = 0 ∧ 1 < (pySplit delim n.text).length := by
  intro ns
  induction ns with
  | nil => intro delim tt e h; cases h
  | cons n rest ih =>
    intro delim tt e h
    simp only [split_nodes_delimiter] at h
    by_cases c1 : (n.textType != .text) = true
    · rw [if_pos c1] at h
      rcases hres : split_nodes_delimiter rest delim tt with e' | rs
      · rw [hres] at h
        simp only [Except.map] at h
        injection h with h
        subst h
        obtain ⟨m, hm, hrest⟩ := ih delim tt e' hres
        exact ⟨m, List.mem_cons_of_mem n hm, hrest⟩
      · rw [hres] at h
        simp [Except.map] at h
    · rw [if_neg c1] at h
      have htext : n.textType = .text := by
        simpa using c1
      by_cases c2 : ((pySplit delim n.text).length % 2 == 0) = true
      · rw [if_pos c2] at h
        by_cases c3 : (pySplit delim n.text).length > 1
        · rw [if_pos c3] at h
          injection h with h
          refine ⟨n, List.mem_cons_self n rest, htext, h.symm, ?_, c3⟩
          simpa using c2
        · rw [if_neg c3] at h
          rcases hres : split_nodes_delimiter rest delim tt with e' | rs
          · rw [hres] at h
            simp only [Except.map] at h
            injection h with h
            subst h
            obtain ⟨m, hm, hrest⟩ := ih delim tt e' hres
            exact ⟨m, List.mem_cons_of_mem n hm, hrest⟩
          · rw [hres] at h
            simp [Except.map] at h
      · rw [if_neg c2] at h
        rcases hres : split_nodes_delimiter rest delim tt with e' | rs
        · rw [hres] at h
          simp only [Except.map] at h
          injection h with h
          subst h
          obtain ⟨m, hm, hrest⟩ := ih delim tt e' hres
          exact ⟨m, List.mem_cons_of_mem n hm, hrest⟩
        · rw [hres] at h
          simp [Except.map] at h

lemma snd_error_exists :
    ∀ (ns : List TextNode) (delim : Str) (tt : TextType),
      (∃ n ∈ ns, n.textType = .text ∧ (pySplit delim n.text).length % 2 = 0 ∧
        1 < (pySplit delim n.text).length) →
      ∃ e, split_nodes_delimiter ns delim tt = .error e := by
  intro ns
  induction ns with
  | nil => intro delim tt ⟨n, hm, _⟩; simp at hm
  | cons n rest ih =>
    intro delim tt ⟨m, hm, htext, heven, hlen⟩
    rcases List.mem_cons.mp hm with rfl | hm
    · have c1 : (m.textType != .text) = false := by simp [htext]
      have c2 : ((pySplit delim m.text).length % 2 == 0) = true := by
        simpa using heven
      refine ⟨.malformedInline delim m.text, ?_⟩
      simp only [split_nodes_delimiter]
      rw [if_neg (by simp [c1]), if_pos c2, if_pos hlen]
    · obtain ⟨e, he⟩ := ih delim tt ⟨m, hm, htext, heven, hlen⟩
      simp only [split_nodes_delimiter]
      by_cases c1 : (n.textType != .text) = true
      · exact ⟨e, by rw [if_pos c1, he]; rfl⟩
      · by_cases c2 : ((pySplit delim n.text).length % 2 == 0) = true
        · by_cases c3 : (pySplit delim n.text).length > 1
          · exact ⟨.malformedInline delim n.text, by rw [if_neg c1, if_pos c2, if_pos c3]⟩
          · exact ⟨e, by rw [if_neg c1, if_pos c2, if_neg c3, he]; rfl⟩
        · exact ⟨e, by rw [if_neg c1, if_neg c2, he]; rfl⟩

lemma snd_ok_of_no_occ :
    ∀ (ns : List TextNode) (delim : Str) (tt : TextType),
      (∀ n ∈ ns, n.textType = .text → ¬ delim <:+: n.text) →
      ∃ rs, split_nodes_delimiter ns delim tt = .ok rs := by
  intro ns delim tt h
  rcases hres : split_nodes_delimiter ns delim tt with e | rs
  · obtain ⟨n, hm, htext, _, hlen⟩ := snd_error_char ns delim tt e hres
    have hno : ¬ delim <:+: n.text := h n hm htext
    rw [pySplit_eq_self hno] at hlen
    simp at hlen
  · exact ⟨rs, rfl⟩

lemma tokenize_error_char :
    ∀ (t : Str) (e : PyErr), text_to_textnodes t = .error e →
      ∃ d txt, (d = ("**").toList ∨ d = ("_").toList ∨ d = ("`").toList) ∧
        e = .malformedInline d txt ∧
        (pySplit d txt).length % 2 = 0 ∧ 1 < (pySplit d txt).length := by
  intro t e h
  simp only [text_to_textnodes, bind, Except.bind] at h
  split at h
  next e1 heq1 =>
    injection h with h
    subst h
    obtain ⟨n, _, _, he, hmod, hlen⟩ := snd_error_char _ _ _ _ heq1
    exact ⟨(("**").toList), n.text, Or.inl rfl, he, hmod, hlen⟩
  next ns1 heq1 =>
    split at h
    next e2 heq2 =>
      injection h with h
      subst h
      obtain ⟨n, _, _, he, hmod, hlen⟩ := snd_error_char _ _ _ _ heq2
      exact ⟨(("_").toList), n.text, Or.inr (Or.inl rfl), he, hmod, hlen⟩
    next ns2 heq2 =>
      split at h
      next e3 heq3 =>
        injection h with h
        subst h
        obtain ⟨n, _, _, he, hmod, hlen⟩ := snd_error_char _ _ _ _ heq3
        exact ⟨(("`").toList), n.text, Or.inr (Or.inr rfl), he, hmod, hlen⟩
      next ns3 heq3 =>
        simp [pure, Except.pure] at h

/-- C3: a delimiter pass fails exactly when some Text span splits into an
even number of parts greater than one (the error naming that delimiter
and that span's text); a delimiter that does not occur in any Text span
never causes an error; every tokenizer error arises this way from one of
the three delimiters; and `tokenize("broken `code")` raises the error for
the backtick delimiter. -/
theorem tokenizer_unmatched_delimiter :
    (∀ ns delim tt e, split_nodes_delimiter ns delim tt = .error e →
      ∃ n ∈ ns, n.textType = .text ∧ e = .malformedInline delim n.text ∧
        (pySplit delim n.text).length % 2 = 0 ∧ 1 < (pySplit delim n.text).length) ∧
    (∀ ns delim tt,
      (∃ n ∈ ns, n.textType = .text ∧ (pySplit delim n.text).length % 2 = 0 ∧
        1 < (pySplit delim n.text).length) →
      ∃ e, split_nodes_delimiter ns delim tt = .error e) ∧
    (∀ ns delim tt, (∀ n ∈ ns, n.textType = .text → ¬ delim <:+: n.text) →
      ∃ rs, split_nodes_delimiter ns delim tt = .ok rs) ∧
    (∀ t e, text_to_textnodes t = .error e →
      ∃ d txt, (d = ("**").toList ∨ d = ("_").toList ∨ d = ("`").toList) ∧
        e = .malformedInline d txt ∧
        (pySplit d txt).length % 2 = 0 ∧ 1 < (pySplit d txt).length) ∧
    text_to_textnodes (("broken `code").toList) =
      .error (.malformedInline (("`").toList) (("broken `code").toList)) :=
  ⟨snd_error_char, snd_error_exists, snd_ok_of_no_occ, tokenize_error_char, rfl⟩

/-- Witness for C3: a concrete unmatched backtick makes the code pass
fail, and a span without the delimiter passes. -/
theorem tokenizer_unmatched_delimiter_witness :
    (∃ e, split_nodes_delimiter [⟨("a`b").toList, .text, none⟩] (("`").toList) .code
      = .error e) ∧
    (∃ rs, split_nodes_delimiter [⟨("ab").toList, .text, none⟩] (("`").toList) .code
      = .ok rs) :=
  ⟨tokenizer_unmatched_delimiter.2.1 _ _ _
      ⟨⟨("a`b").toList, .text, none⟩, by decide⟩,
   tokenizer_unmatched_delimiter.2.2.1 _ _ _
      (by
        intro n hn htext
        have : n = ⟨("ab").toList, .text, none⟩ := by
          simpa using hn
        intro hinf
        rw [this] at hinf
        revert hinf
        decide)⟩

/-- The target invariant of the span data model: `url` is present exactly
for Link and Image spans. -/
def goodTarget (n : TextNode) : Prop :=
  n.url ≠ none ↔ (n.textType = .link ∨ n.textType = .image)

lemma goodTarget_textNode (txt : Str) : goodTarget ⟨txt, .text, none⟩ := by
  simp [goodTarget]

lemma imgLoop_good : ∀ (imgs : List (Str × Str)) (txt : Str), ∀ m ∈ imgLoop imgs txt, goodTarget m := by
  intro imgs
  induction imgs with
  | nil =>
    intro txt m hm
    simp only [imgLoop] at hm
    by_cases ht : txt.isEmpty = true
    · rw [if_pos ht] at hm; simp at hm
    · rw [if_neg ht] at hm
      simp only [List.mem_singleton] at hm
      subst hm
      exact goodTarget_textNode txt
  | cons p rest ih =>
    intro txt m hm
    obtain ⟨alt, url⟩ := p
    simp only [imgLoop] at hm
    split at hm
    · rename_i before after heq
      rcases List.mem_append.mp hm with h | h
      · by_cases hb : before.isEmpty = true
        · rw [if_pos hb] at h; simp at h
        · rw [if_neg hb] at h
          simp only [List.mem_singleton] at h
          subst h
          exact goodTarget_textNode _
      · rcases List.mem_cons.mp h with rfl | h
        · simp [goodTarget]
        · exact ih _ m h
    · by_cases he : (txt == imageMarkdownOf alt url) = true
      · rw [if_pos he] at hm
        simp only [List.mem_singleton] at hm
        subst hm
        simp [goodTarget]
      · rw [if_neg he] at hm
        by_cases ht : txt.isEmpty = true
        · rw [if_pos ht] at hm; simp at hm
        · rw [if_neg ht] at hm
          simp only [List.mem_singleton] at hm
          subst hm
          exact goodTarget_textNode txt

lemma linkLoop_good : ∀ (links : List (Str × Str)) (txt : Str), ∀ m ∈ linkLoop links txt, goodTarget m := by
  intro links
  induction links with
  | nil =>
    intro txt m hm
    simp only [linkLoop] at hm
    by_cases ht : txt.isEmpty = true
    · rw [if_pos ht] at hm; simp at hm
    · rw [if_neg ht] at hm
      simp only [List.mem_singleton] at hm
      subst hm
      exact goodTarget_textNode txt
  | cons p rest ih =>
    intro txt m hm
    obtain ⟨anchor, url⟩ := p
    simp only [linkLoop] at hm
    split at hm
    · rename_i before after heq
      rcases List.mem_append.mp hm with h | h
      · by_cases hb : before.isEmpty = true
        · rw [if_pos hb] at h; simp at h
        · rw [if_neg hb] at h
          simp only [List.mem_singleton] at h
          subst h
          exact goodTarget_textNode _
      · rcases List.mem_cons.mp h with rfl | h
        · simp [goodTarget]
        · exact ih _ m h
    · by_cases he : (txt == linkMarkdownOf anchor url) = true
      · rw [if_pos he] at hm
        simp only [List.mem_singleton] at hm
        subst hm
        simp [goodTarget]
      · rw [if_neg he] at hm
        by_cases ht : txt.isEmpty = true
        · rw [if_pos ht] at hm; simp at hm
        · rw [if_neg ht] at hm
          simp only [List.mem_singleton] at hm
          subst hm
          exact goodTarget_textNode txt

lemma split_nodes_image_good :
    ∀ (ns : List TextNode), (∀ n ∈ ns, goodTarget n) →
      ∀ m ∈ split_nodes_image ns, goodTarget m := by
  intro ns
  induction ns with
  | nil => intro _ m hm; simp [split_nodes_image] at hm
  | cons n rest ih =>
    intro hgood m hm
    have hrest : ∀ n ∈ rest, goodTarget n :=
      fun x hx => hgood x (List.mem_cons_of_mem n hx)
    simp only [split_nodes_image] at hm
    by_cases c1 : (n.textType != .text) = true
    · rw [if_pos c1] at hm
      rcases List.mem_cons.mp hm with rfl | h
      · exact hgood m (List.mem_cons_self m rest)
      · exact ih hrest m h
    · rw [if_neg c1] at hm
      by_cases c2 : (extract_markdown_images n.text).isEmpty = true
      · rw [if_pos c2] at hm
        rcases List.mem_append.mp hm with h | h
        · by_cases c3 : n.text.isEmpty = true
          · rw [if_pos c3] at h; simp at h
          · rw [if_neg c3] at h
            simp only [List.mem_singleton] at h
            subst h
            exact hgood m (List.mem_cons_self m rest)
        · exact ih hrest m h
      · rw [if_neg c2] at hm
        rcases List.mem_append.mp hm with h | h
        · exact imgLoop_good _ _ m h
        · exact ih hrest m h

lemma split_nodes_link_good :
    ∀ (ns : List TextNode), (∀ n ∈ ns, goodTarget n) →
      ∀ m ∈ split_nodes_link ns, goodTarget m := by
  intro ns
  induction ns with
  | nil => intro _ m hm; simp [split_nodes_link] at hm
  | cons n rest ih =>
    intro hgood m hm
    have hrest : ∀ n ∈ rest, goodTarget n :=
      fun x hx => hgood x (List.mem_cons_of_mem n hx)
    simp only [split_nodes_link] at hm
    by_cases c1 : (n.textType != .text) = true
    · rw [if_pos c1] at hm
      rcases List.mem_cons.mp hm with rfl | h
      · exact hgood m (List.mem_cons_self m rest)
      · exact ih hrest m h
    · rw [if_neg c1] at hm
      by_cases c2 : (extract_markdown_links n.text).isEmpty = true
      · rw [if_pos c2] at hm
        rcases List.mem_append.mp hm with h | h
        · by_cases c3 : n.text.isEmpty = true
          · rw [if_pos c3] at h; simp at h
          · rw [if_neg c3] at h
            simp only [List.mem_singleton] at h
            subst h
            exact hgood m (List.mem_cons_self m rest)
        · exact ih hrest m h
      · rw [if_neg c2] at hm
        rcases List.mem_append.mp hm with h | h
        · exact linkLoop_good _ _ m h
        · exact ih hrest m h

lemma partsToNodes_good {tt : TextType} (h1 : tt ≠ .link) (h2 : tt ≠ .image) :
    ∀ (parts : List Str) (i : Nat), ∀ m ∈ partsToNodes tt i parts, goodTarget m := by
  intro parts
  induction parts with
  | nil => intro i m hm; simp [partsToNodes] at hm
  | cons p ps ih =>
    intro i m hm
    simp only [partsToNodes] at hm
    by_cases c1 : p.isEmpty = true
    · rw [if_pos c1] at hm
      exact ih (i + 1) m hm
    · rw [if_neg c1] at hm
      by_cases c2 : (i % 2 == 0) = true
      · rw [if_pos c2] at hm
        rcases List.mem_cons.mp hm with rfl | h
        · exact goodTarget_textNode p
        · exact ih (i + 1) m h
      · rw [if_neg c2] at hm
        rcases List.mem_cons.mp hm with rfl | h
        · simp [goodTarget, h1, h2]
        · exact ih (i + 1) m h

lemma snd_good {tt : TextType} (h1 : tt ≠ .link) (h2 : tt ≠ .image) :
    ∀ (ns : List TextNode) (delim : Str) (rs : List TextNode),
      split_nodes_delimiter ns delim tt = .ok rs →
      (∀ n ∈ ns, goodTarget n) → ∀ m ∈ rs, goodTarget m := by
  intro ns
  induction ns with
  | nil =>
    intro delim rs h _
    injection h with h
    subst h
    intro m hm
    simp at hm
  | cons n rest ih =>
    intro delim rs h hgood
    have hrest : ∀ n ∈ rest, goodTarget n :=
      fun x hx => hgood x (List.mem_cons_of_mem n hx)
    simp only [split_nodes_delimiter] at h
    by_cases c1 : (n.textType != .text) = true
    · rw [if_pos c1] at h
      rcases hres : split_nodes_delimiter rest delim tt with e' | rs'
      · rw [hres] at h; simp [Except.map] at h
      · rw [hres] at h
        simp only [Except.map] at h
        injection h with h
        subst h
        intro m hm
        rcases List.mem_cons.mp hm with rfl | hm
        · exact hgood m (List.mem_cons_self m rest)
        · exact ih delim rs' hres hrest m hm
    · rw [if_neg c1] at h
      by_cases c2 : ((pySplit delim n.text).length % 2 == 0) = true
      · rw [if_pos c2] at h
        by_cases c3 : (pySplit delim n.text).length > 1
        · rw [if_pos c3] at h; cases h
        · rw [if_neg c3] at h
          rcases hres : split_nodes_delimiter rest delim tt with e' | rs'
          · rw [hres] at h; simp [Except.map] at h
          · rw [hres] at h
            simp only [Except.map] at h
            injection h with h
            subst h
            intro m hm
            rcases List.mem_cons.mp hm with rfl | hm
            · exact hgood m (List.mem_cons_self m rest)
            · exact ih delim rs' hres hrest m hm
      · rw [if_neg c2] at h
        rcases hres : split_nodes_delimiter rest delim tt with e' | rs'
        · rw [hres] at h; simp [Except.map] at h
        · rw [hres] at h
          simp only [Except.map] at h
          injection h with h
          subst h
          intro m hm
          rcases List.mem_append.mp hm with hm | hm
          · exact partsToNodes_good h1 h2 _ 0 m hm
          · exact ih delim rs' hres hrest m hm

/-- C4: every span produced by the tokenizer has a target exactly when
its kind is Link or Image, and this invariant is preserved by the image
pass, the link pass, and every delimiter pass whose target type is not
Link or Image. -/
theorem tokenizer_target_invariant :
    (∀ t ns, text_to_textnodes t = .ok ns →
      ∀ n ∈ ns, (n.url ≠ none ↔ (n.textType = .link ∨ n.textType = .image))) ∧
    (∀ ns, (∀ n ∈ ns, goodTarget n) → ∀ m ∈ split_nodes_image ns, goodTarget m) ∧
    (∀ ns, (∀ n ∈ ns, goodTarget n) → ∀ m ∈ split_nodes_link ns, goodTarget m) ∧
    (∀ (ns : List TextNode) (delim : Str) (tt : TextType) rs, tt ≠ .link → tt ≠ .image →
      split_nodes_delimiter ns delim tt = .ok rs →
      (∀ n ∈ ns, goodTarget n) → ∀ m ∈ rs, goodTarget m) := by
  refine ⟨?_, split_nodes_image_good, split_nodes_link_good,
    fun ns delim tt rs h1 h2 h hg => snd_good h1 h2 ns delim rs h hg⟩
  intro t ns h n hn
  have good0 : ∀ m ∈ [(⟨t, .text, none⟩ : TextNode)], goodTarget m := by
    intro m hm
    simp only [List.mem_singleton] at hm
    subst hm
    exact goodTarget_textNode t
  have good1 := split_nodes_image_good _ good0
  have good2 := split_nodes_link_good _ good1
  simp only [text_to_textnodes, bind, Except.bind] at h
  split at h
  · cases h
  next ns1 heq1 =>
    split at h
    · cases h
    next ns2 heq2 =>
      split at h
      · cases h
      next ns3 heq3 =>
        simp only [pure, Except.pure] at h
        injection h with h
        subst h
        have good3 := snd_good (by simp) (by simp) _ _ _ heq1 good2
        have good4 := snd_good (by simp) (by simp) _ _ _ heq2 good3
        have good5 := snd_good (by simp) (by simp) _ _ _ heq3 good4
        exact good5 n hn

/-- Witness for C4: the invariant instantiated on the tokenization of a
concrete image, and on a concrete delimiter pass. -/
theorem tokenizer_target_invariant_witness :
    ((⟨("alt").toList, .image, some (("u.png").toList)⟩ : TextNode).url ≠ none ↔
      ((⟨("alt").toList, .image, some (("u.png").toList)⟩ : TextNode).textType = .link ∨
       (⟨("alt").toList, .image, some (("u.png").toList)⟩ : TextNode).textType = .image)) :=
  tokenizer_target_invariant.1 (("![alt](u.png)").toList)
    [⟨("alt").toList, .image, some (("u.png").toList)⟩] rfl
    ⟨("alt").toList, .image, some (("u.png").toList)⟩ (List.mem_singleton.mpr rfl)

/-! ## C1 and C2: the quote and code conversions -/

lemma charIn_gtsp (c : Char) : charIn (("> ").toList) c = ((c == '>') || (c == ' ')) := by
  show List.elem c ['>', ' '] = _
  by_cases h1 : (c == '>') = true
  · simp [List.elem, h1]
  · by_cases h2 : (c == ' ') = true
    · simp [List.elem, h1, h2]
    · simp [List.elem, h1, h2]

lemma charIn_gt (c : Char) : charIn ((">").toList) c = (c == '>') := by
  show List.elem c ['>'] = _
  by_cases h1 : (c == '>') = true
  · simp [List.elem, h1]
  · simp [List.elem, h1]

lemma charIn_nl (c : Char) : charIn (("\n").toList) c = (c == '\n') := by
  show List.elem c ['\n'] = _
  by_cases h1 : (c == '\n') = true
  · simp [List.elem, h1]
  · simp [List.elem, h1]

lemma quote_strip_eq (l : Str) :
    pyLstripChars ((">").toList) (pyLstripChars (("> ").toList) l) = quoteLineStripAmended l := by
  unfold pyLstripChars pyLstripBy quoteLineStripAmended
  rw [funext charIn_gtsp, funext charIn_gt]
  apply dropWhile_no_drop
  intro c hc
  have := dropWhile_head_not (fun c => (c == '>') || (c == ' ')) l c hc
  rcases Bool.or_eq_false_iff.mp this with ⟨h1, _⟩
  exact h1

/-- C1 counterexample: on the quote block `"> > a"` the conversion in the
code differs from the claim's description (the code strips the whole
`"> > "` run, the claim would leave `"> a"`). -/
theorem quote_conversion_cex :
    block_to_block_type (("> > a").toList) = .quote ∧
    quote_block_to_html_node (("> > a").toList) ≠
      quote_block_to_html_node_claim (("> > a").toList) := by
  refine ⟨by decide, ?_⟩
  intro h
  have h2 := congrArg exceptChildLeafValues h
  revert h2
  decide

/-- C1 amended: for every block, the quote conversion strips all leading
`>` and space characters from every line, rejoins the lines with
newlines, tokenizes the result, and wraps the spans in a blockquote
container. -/
theorem quote_conversion_amended (block : Str) :
    quote_block_to_html_node block = quote_block_to_html_node_amended block := by
  unfold quote_block_to_html_node quote_block_to_html_node_amended
  rw [show (fun l => pyLstripChars ((">").toList) (pyLstripChars (("> ").toList) l))
      = quoteLineStripAmended from funext quote_strip_eq]

lemma classify_code_inv {block : Str} (h : block_to_block_type block = .code) :
    (("```").toList).isPrefixOf block = true ∧ (("```").toList).isSuffixOf block = true := by
  simp only [block_to_block_type] at h
  split at h
  · cases h
  · split at h
    next hcond =>
      rcases Bool.and_eq_true .. |>.mp hcond with ⟨h1, hsuf⟩
      rcases Bool.and_eq_true .. |>.mp h1 with ⟨_, hpre⟩
      exact ⟨hpre, hsuf⟩
    next =>
      split at h
      · cases h
      · split at h
        · cases h
        · split at h
          · cases h
          · cases h

/-- C2 counterexample: on the code block `"```\n\nx\n\n```"` the
conversion in the code differs from the claim's description (the code
strips all surrounding newlines, the claim would strip only one on each
side). -/
theorem code_conversion_cex :
    block_to_block_type (("```\n\nx\n\n```").toList) = .code ∧
    code_block_to_html_node (("```\n\nx\n\n```").toList) ≠
      code_block_to_html_node_claim (("```\n\nx\n\n```").toList) := by
  refine ⟨by decide, ?_⟩
  intro h
  have h2 := congrArg exceptChildLeafValues h
  revert h2
  decide

/-- C2 amended: for every block classified as Code, the conversion
removes the fences (`block[3:-3]`), strips all leading and trailing
newlines, does not tokenize the remaining content, and wraps it as a
literal leaf with tag `code` inside a `pre` container. -/
theorem code_conversion_amended (block : Str)
    (h : block_to_block_type block = .code) :
    code_block_to_html_node block = code_block_to_html_node_amended block := by
  obtain ⟨hpre, hsuf⟩ := classify_code_inv h
  unfold code_block_to_html_node code_block_to_html_node_amended
  rw [if_pos (by rw [hpre, hsuf]; rfl)]
  have hc : pyStripChars (("\n").toList) ((block.take (block.length - 3)).drop 3)
      = stripAllNewlinesAmended ((block.take (block.length - 3)).drop 3) := by
    unfold pyStripChars pyStripBy pyRstripBy pyLstripBy stripAllNewlinesAmended
    rw [funext charIn_nl]
  rw [hc]

/-- Witness for the amended C2 at the concrete code block `"```ab```"`. -/
theorem code_conversion_amended_witness :
    block_to_block_type (("```ab```").toList) = .code ∧
    code_block_to_html_node (("```ab```").toList) =
      code_block_to_html_node_amended (("```ab```").toList) :=
  ⟨by decide, code_conversion_amended (("```ab```").toList) (by decide)⟩

end StaticSite
